import Mathlib

/-!
Shallow embedding of the xolotl service directory core:
the `ServiceAddress` / `ServiceEntry` data model (`src/model/service_address.rs`,
`src/model/service_registry.rs`) and the `InMemoryRegistry` storage engine
(`src/registry/in_memory_registry.rs`).

The Rust `HashMap<String, ServiceEntry>` keyed table is embedded as an
association list `List (String × ServiceEntry)`; the map's key-uniqueness
invariant appears as an explicit `Nodup` hypothesis where a claim needs it.
Timestamps are millisecond epoch values (Rust `u64`), embedded as `Nat`; the
wall clock `now()` becomes an explicit `now : Nat` argument of the operations
that read it.  Rust methods taking `&mut self` and returning
`Result<(), RegistryError>` become functions returning
`Except RegistryError Unit × InMemoryRegistry`: the pair's first component is
the returned `Result`, the second the registry state after the call.
-/

namespace Xolotl

/-- Abbreviation letting the `ServiceAddress.String` constructor keep the Rust
variant's name while still referring to the builtin string type. -/
abbrev Str := String

/-- `ServiceAddress` (src/model/service_address.rs): a tagged value with a
single variant holding the raw connection string. -/
inductive ServiceAddress where
  | String (addr : Str)
deriving DecidableEq

/-- `ServiceAddress::as_str`. -/
def ServiceAddress.as_str : ServiceAddress → Str
  | ServiceAddress.String a => a

/-- Rust `str::split(c)` on a character separator, over the character list:
splits at every occurrence, always yields at least one (possibly empty)
segment. -/
def splitOnChar (c : Char) : List Char → List (List Char)
  | [] => [[]]
  | x :: xs =>
    if x = c then [] :: splitOnChar c xs
    else (x :: (splitOnChar c xs).headD []) :: (splitOnChar c xs).tail

/-- Rust `str::contains("://")` over the character list. -/
def containsProto : List Char → Bool
  | ':' :: '/' :: '/' :: _ => true
  | _ :: rest => containsProto rest
  | [] => false

/-- Rust `str::split("://")` over the character list: splits at every
non-overlapping occurrence of `://`, left to right. -/
def splitOnProto : List Char → List (List Char)
  | ':' :: '/' :: '/' :: rest => [] :: splitOnProto rest
  | x :: rest => (x :: (splitOnProto rest).headD []) :: (splitOnProto rest).tail
  | [] => [[]]

/-- Rust `str::parse::<u16>()` (as an `Option Nat`): an optional leading `+`,
then one or more ASCII digits, value at most `2^16 - 1`; anything else fails. -/
def parseU16 (l : List Char) : Option Nat :=
  let digits := match l with
    | '+' :: rest => rest
    | _ => l
  if digits.isEmpty then none
  else if digits.all Char.isDigit then
    let n := digits.foldl (fun acc c => acc * 10 + (c.toNat - 48)) 0
    if n < 65536 then some n else none
  else none

/-- `ServiceAddress::extract_port` (src/model/service_address.rs): if the
string contains `://`, split on `://` and take the part between the first and
second occurrence as the host part, else the whole string is the host part;
split the host part on `:`, take the segment after the first `:` (failing if
there is none), truncate it at the first `/`, and parse it as a `u16`. -/
def ServiceAddress.extract_port : ServiceAddress → Option Nat
  | ServiceAddress.String addr =>
    let l := addr.data
    if containsProto l then
      let parts := splitOnProto l
      if parts.length < 2 then none
      else
        let host_parts := splitOnChar ':' (parts.getD 1 [])
        if host_parts.length < 2 then none
        else
          match (splitOnChar '/' (host_parts.getD 1 [])).head? with
          | none => none
          | some seg => parseU16 seg
    else
      let parts := splitOnChar ':' l
      if parts.length < 2 then none
      else
        match (splitOnChar '/' (parts.getD 1 [])).head? with
        | none => none
        | some seg => parseU16 seg

/-- `HealthStatus` (src/model/service_registry.rs). -/
inductive HealthStatus where
  | Healthy
  | Unknown
  | Stale
  | Unhealthy
deriving DecidableEq

/-- `ServiceEntry` (src/model/service_registry.rs).  The Rust
`tags: HashMap<String, String>` is embedded as an association list. -/
structure ServiceEntry where
  id : String
  service_name : String
  environment : String
  address : ServiceAddress
  tags : List (String × String)
  registered_at : Nat
  last_heartbeat : Nat
deriving DecidableEq

/-- `ServiceEntry::health_status`: always returns `Unknown`. -/
def ServiceEntry.health_status (_ : ServiceEntry) : HealthStatus :=
  HealthStatus.Unknown

/-- `2^64`, the modulus of Rust `u64` arithmetic. -/
def U64MOD : Nat := 2 ^ 64

/-- `ServiceEntry::time_since_last_heartbeat`: the unchecked `u64` subtraction
`now() - self.last_heartbeat`, which wraps modulo `2^64` on underflow. -/
def ServiceEntry.time_since_last_heartbeat (e : ServiceEntry) (now : Nat) : Nat :=
  (now + U64MOD - e.last_heartbeat) % U64MOD

/-- `RegistryError` (src/model/service_registry.rs). -/
inductive RegistryError where
  | AlreadyExists
  | NotFound
  | InternalError (detail : String)
deriving DecidableEq

/-- `InMemoryRegistry` (src/registry/in_memory_registry.rs): the
`HashMap<String, ServiceEntry>` keyed by entry id, as an association list. -/
structure InMemoryRegistry where
  services : List (String × ServiceEntry)
deriving DecidableEq

/-- `InMemoryRegistry::new`. -/
def InMemoryRegistry.new : InMemoryRegistry := ⟨[]⟩

/-- `InMemoryRegistry::list`: `self.services.values().cloned().collect()`. -/
def InMemoryRegistry.list (r : InMemoryRegistry) : List ServiceEntry :=
  r.services.map Prod.snd

/-- `HashMap::contains_key` on the association list. -/
def InMemoryRegistry.contains_key (r : InMemoryRegistry) (id : String) : Bool :=
  r.services.any (fun p => p.1 == id)

/-- `InMemoryRegistry::register`: fail `AlreadyExists` when the id is already
a key, otherwise insert the entry under its id. -/
def InMemoryRegistry.register (r : InMemoryRegistry) (e : ServiceEntry) :
    Except RegistryError Unit × InMemoryRegistry :=
  if r.contains_key e.id then (Except.error RegistryError.AlreadyExists, r)
  else (Except.ok (), ⟨r.services ++ [(e.id, e)]⟩)

/-- `InMemoryRegistry::resolve`: filter the stored values by exact equality of
`service_name` and `environment`. -/
def InMemoryRegistry.resolve (r : InMemoryRegistry) (service_name environment : String) :
    List ServiceEntry :=
  (r.services.map Prod.snd).filter
    (fun s => s.service_name == service_name && s.environment == environment)

/-- `HashMap::remove(id)` on the association list. -/
def removeKey (svcs : List (String × ServiceEntry)) (id : String) :
    List (String × ServiceEntry) :=
  svcs.filter (fun p => p.1 != id)

/-- `InMemoryRegistry::deregister`: snapshot the ids of all matching entries
(matching name and environment when one is given, name alone otherwise), fail
`NotFound` when the snapshot is empty, otherwise remove the snapshotted ids one
by one. -/
def InMemoryRegistry.deregister (r : InMemoryRegistry) (service_name : String)
    (environment : Option String) : Except RegistryError Unit × InMemoryRegistry :=
  let ids_to_remove : List String :=
    match environment with
    | some env =>
      (r.services.filter
        (fun p => p.2.service_name == service_name && p.2.environment == env)).map Prod.fst
    | none =>
      (r.services.filter (fun p => p.2.service_name == service_name)).map Prod.fst
  if ids_to_remove.isEmpty then (Except.error RegistryError.NotFound, r)
  else (Except.ok (), ⟨ids_to_remove.foldl removeKey r.services⟩)

/-- Modelled from the spec: the `ServiceRegistry` trait
(src/model/service_registry.rs) declares `heartbeat` and the HTTP layer
(src/api/services.rs) calls it, but the `InMemoryRegistry` implementation of
`heartbeat` is absent from the sources.  Following the spec sentence: "updates
`last_heartbeat` to the current timestamp on every matching entry (or fails
`NotFound` if none match)". -/
def InMemoryRegistry.heartbeat (r : InMemoryRegistry) (service_name environment : String)
    (now : Nat) : Except RegistryError Unit × InMemoryRegistry :=
  if r.services.any
      (fun p => p.2.service_name == service_name && p.2.environment == environment) then
    (Except.ok (), ⟨r.services.map (fun p =>
      if p.2.service_name == service_name && p.2.environment == environment then
        (p.1, { p.2 with last_heartbeat := now })
      else p)⟩)
  else (Except.error RegistryError.NotFound, r)

/-! Concrete fixtures used by the witness theorems. -/

/-- A concrete address used by the example entries. -/
def addrEx : ServiceAddress := ServiceAddress.String "http://10.0.0.1:9000"

/-- Example entry: service `svc` in `dev`. -/
def entryEx1 : ServiceEntry :=
  { id := "id-1", service_name := "svc", environment := "dev", address := addrEx,
    tags := [("v", "1")], registered_at := 3, last_heartbeat := 5 }

/-- Example entry: service `svc` in `prod`. -/
def entryEx2 : ServiceEntry :=
  { id := "id-2", service_name := "svc", environment := "prod", address := addrEx,
    tags := [], registered_at := 4, last_heartbeat := 4 }

/-- Example entry: service `other` in `dev`. -/
def entryEx3 : ServiceEntry :=
  { id := "id-3", service_name := "other", environment := "dev", address := addrEx,
    tags := [], registered_at := 2, last_heartbeat := 2 }

/-- Example registry holding the three example entries. -/
def regEx : InMemoryRegistry :=
  ⟨[("id-1", entryEx1), ("id-2", entryEx2), ("id-3", entryEx3)]⟩

/-! Basic lemmas about the engine. -/

/-- `contains_key` holds exactly when some stored pair has the given key. -/
theorem contains_key_iff (r : InMemoryRegistry) (id : String) :
    r.contains_key id = true ↔ ∃ p ∈ r.services, p.1 = id := by
  simp [InMemoryRegistry.contains_key, List.any_eq_true]

/-- C9: `ServiceEntry::health_status` returns `HealthStatus.Unknown` for every
entry, regardless of its `registered_at` and `last_heartbeat` values. -/
theorem health_status_always_unknown (e : ServiceEntry) :
    e.health_status = HealthStatus.Unknown := rfl

/-- C10: `ServiceEntry::time_since_last_heartbeat` is the unchecked u64
subtraction `now() - last_heartbeat`: when `last_heartbeat ≤ now` it returns
the true elapsed time, and when `last_heartbeat` exceeds the clock reading the
subtraction underflows, wrapping to `2^64 - (last_heartbeat - now)` instead of
a defined elapsed value. -/
theorem time_since_last_heartbeat_underflow (e : ServiceEntry) (now : Nat)
    (hl : e.last_heartbeat < U64MOD) (hn : now < U64MOD) :
    e.time_since_last_heartbeat now =
      if e.last_heartbeat ≤ now then now - e.last_heartbeat
      else U64MOD - (e.last_heartbeat - now) := by
  have hpos : 0 < U64MOD := by norm_num [U64MOD]
  unfold ServiceEntry.time_since_last_heartbeat
  split
  · have h1 : now + U64MOD - e.last_heartbeat = (now - e.last_heartbeat) + U64MOD := by
      omega
    rw [h1, Nat.add_mod_right, Nat.mod_eq_of_lt (by omega)]
  · rw [Nat.mod_eq_of_lt (by omega)]
    omega

/-- Witness for C10 at a concrete entry whose `last_heartbeat` (5) lies beyond
the clock reading (3), exhibiting the underflow wrap. -/
theorem time_since_last_heartbeat_underflow_witness :
    (entryEx1.last_heartbeat < U64MOD ∧ 3 < U64MOD) ∧
    entryEx1.time_since_last_heartbeat 3 =
      if entryEx1.last_heartbeat ≤ 3 then 3 - entryEx1.last_heartbeat
      else U64MOD - (entryEx1.last_heartbeat - 3) :=
  ⟨⟨by norm_num [entryEx1, U64MOD], by norm_num [U64MOD]⟩,
    time_since_last_heartbeat_underflow entryEx1 3 (by norm_num [entryEx1, U64MOD])
      (by norm_num [U64MOD])⟩

/-- C5: `resolve` returns exactly the stored entries whose `service_name` and
`environment` equal the arguments under exact string equality, and returns the
empty list — its return type carries no error case — when nothing matches,
including on the empty registry. -/
theorem resolve_exact_match (r : InMemoryRegistry) (n env : String) :
    (∀ s, s ∈ r.resolve n env ↔
      (∃ p ∈ r.services, p.2 = s) ∧ s.service_name = n ∧ s.environment = env) ∧
    ((∀ p ∈ r.services, ¬(p.2.service_name = n ∧ p.2.environment = env)) →
      r.resolve n env = []) ∧
    InMemoryRegistry.new.resolve n env = [] := by
  refine ⟨fun s => ?_, fun h => ?_, rfl⟩
  · simp only [InMemoryRegistry.resolve, List.mem_filter, List.mem_map,
      Bool.and_eq_true, beq_iff_eq]
  · simp only [InMemoryRegistry.resolve]
    rw [List.filter_eq_nil_iff]
    simp only [List.mem_map, Bool.and_eq_true, beq_iff_eq]
    aesop

/-- Witness for C5: resolving a never-registered name on the example registry
and on the empty registry yields the empty list. -/
theorem resolve_exact_match_witness :
    (∀ s, s ∈ regEx.resolve "nope" "dev" ↔
      (∃ p ∈ regEx.services, p.2 = s) ∧ s.service_name = "nope" ∧ s.environment = "dev") ∧
    ((∀ p ∈ regEx.services, ¬(p.2.service_name = "nope" ∧ p.2.environment = "dev")) →
      regEx.resolve "nope" "dev" = []) ∧
    InMemoryRegistry.new.resolve "nope" "dev" = [] :=
  resolve_exact_match regEx "nope" "dev"

/-- C4: `register` fails `AlreadyExists` exactly when the entry's id is
already a stored key (identity is the id alone); otherwise it succeeds,
appends the entry to the table, and the entry is visible to `list` and
`resolve`; a further entry with a different id then also registers
successfully, with both entries visible to `resolve`. -/
theorem register_id_identity (r : InMemoryRegistry) (e : ServiceEntry) :
    ((r.register e).1 = Except.error RegistryError.AlreadyExists ↔
      ∃ p ∈ r.services, p.1 = e.id) ∧
    ((r.register e).1 = Except.error RegistryError.AlreadyExists →
      (r.register e).2 = r) ∧
    ((∀ p ∈ r.services, p.1 ≠ e.id) →
      (r.register e).1 = Except.ok () ∧
      (r.register e).2.services = r.services ++ [(e.id, e)] ∧
      e ∈ (r.register e).2.list ∧
      e ∈ (r.register e).2.resolve e.service_name e.environment) ∧
    (∀ e2 : ServiceEntry, e2.id ≠ e.id → (∀ p ∈ r.services, p.1 ≠ e.id) →
      (∀ p ∈ r.services, p.1 ≠ e2.id) →
      ((r.register e).2.register e2).1 = Except.ok () ∧
      e ∈ ((r.register e).2.register e2).2.resolve e.service_name e.environment ∧
      e2 ∈ ((r.register e).2.register e2).2.resolve e2.service_name e2.environment) := by
  by_cases h : r.contains_key e.id = true
  · have hex := (contains_key_iff r e.id).mp h
    refine ⟨by simp [InMemoryRegistry.register, h, hex], by simp [InMemoryRegistry.register, h],
      fun hno => absurd hex ?_, fun e2 _ hno _ => absurd hex ?_⟩ <;>
      · push_neg
        intro p hp
        exact hno p hp
  · have hnotex := (contains_key_iff r e.id).not.mp (by simpa using h)
    push_neg at hnotex
    refine ⟨by
        simp [InMemoryRegistry.register, h]
        exact fun x hx => hnotex (e.id, x) hx rfl,
      by simp [InMemoryRegistry.register, h],
      fun _ => ⟨by simp [InMemoryRegistry.register, h], by simp [InMemoryRegistry.register, h],
        by simp [InMemoryRegistry.register, h, InMemoryRegistry.list],
        by simp [InMemoryRegistry.register, h, InMemoryRegistry.resolve]⟩,
      fun e2 hne _ hno2 => ?_⟩
    have h2 : ¬(⟨r.services ++ [(e.id, e)]⟩ : InMemoryRegistry).contains_key e2.id = true := by
      rw [contains_key_iff]
      rintro ⟨p, hp, hpid⟩
      rcases List.mem_append.mp hp with hp1 | hp1
      · exact hno2 p hp1 hpid
      · rw [List.mem_singleton] at hp1
        subst hp1
        exact hne hpid.symm
    rw [Bool.not_eq_true] at h2
    refine ⟨?_, ?_, ?_⟩
    · simp [InMemoryRegistry.register, h, h2]
    · simp [InMemoryRegistry.register, h, h2, InMemoryRegistry.resolve]
    · simp [InMemoryRegistry.register, h, h2, InMemoryRegistry.resolve]

/-- Witness for C4: on the example registry, a fresh entry (fresh id)
registers successfully and a second fresh entry with the same name and
environment but another id also registers. -/
theorem register_id_identity_witness :
    ((regEx.register { entryEx1 with id := "id-4" }).1 =
        Except.error RegistryError.AlreadyExists ↔
      ∃ p ∈ regEx.services, p.1 = "id-4") ∧
    ((regEx.register { entryEx1 with id := "id-4" }).1 =
        Except.error RegistryError.AlreadyExists →
      (regEx.register { entryEx1 with id := "id-4" }).2 = regEx) ∧
    ((∀ p ∈ regEx.services, p.1 ≠ ({ entryEx1 with id := "id-4" } : ServiceEntry).id) →
      (regEx.register { entryEx1 with id := "id-4" }).1 = Except.ok () ∧
      (regEx.register { entryEx1 with id := "id-4" }).2.services =
        regEx.services ++ [("id-4", { entryEx1 with id := "id-4" })] ∧
      ({ entryEx1 with id := "id-4" } : ServiceEntry) ∈
        (regEx.register { entryEx1 with id := "id-4" }).2.list ∧
      ({ entryEx1 with id := "id-4" } : ServiceEntry) ∈
        (regEx.register { entryEx1 with id := "id-4" }).2.resolve
          ({ entryEx1 with id := "id-4" } : ServiceEntry).service_name
          ({ entryEx1 with id := "id-4" } : ServiceEntry).environment) ∧
    (∀ e2 : ServiceEntry, e2.id ≠ ({ entryEx1 with id := "id-4" } : ServiceEntry).id →
      (∀ p ∈ regEx.services, p.1 ≠ ({ entryEx1 with id := "id-4" } : ServiceEntry).id) →
      (∀ p ∈ regEx.services, p.1 ≠ e2.id) →
      ((regEx.register { entryEx1 with id := "id-4" }).2.register e2).1 = Except.ok () ∧
      ({ entryEx1 with id := "id-4" } : ServiceEntry) ∈
        ((regEx.register { entryEx1 with id := "id-4" }).2.register e2).2.resolve
          ({ entryEx1 with id := "id-4" } : ServiceEntry).service_name
          ({ entryEx1 with id := "id-4" } : ServiceEntry).environment ∧
      e2 ∈ ((regEx.register { entryEx1 with id := "id-4" }).2.register e2).2.resolve
          e2.service_name e2.environment) :=
  register_id_identity regEx { entryEx1 with id := "id-4" }

/-- C8: no operation of the in-memory engine ever produces
`RegistryError.InternalError`: `register`, `deregister` and `heartbeat` only
ever fail with `AlreadyExists` or `NotFound`, and `resolve` and `list` return
plain lists with no error case at all. -/
theorem no_internal_error (r : InMemoryRegistry) (e : ServiceEntry) (n env : String)
    (oe : Option String) (now : Nat) (s : String) :
    (r.register e).1 ≠ Except.error (RegistryError.InternalError s) ∧
    (r.deregister n oe).1 ≠ Except.error (RegistryError.InternalError s) ∧
    (r.heartbeat n env now).1 ≠ Except.error (RegistryError.InternalError s) := by
  refine ⟨?_, ?_, ?_⟩
  · simp only [InMemoryRegistry.register]
    split <;> simp
  · simp only [InMemoryRegistry.deregister]
    split <;> simp
  · simp only [InMemoryRegistry.heartbeat]
    split <;> simp

/-! Deregistration: matching predicate and batch-removal lemmas. -/

/-- The matching predicate `deregister` filters with: name and environment
when an environment is given, name alone otherwise (Bool version, as in the
code). -/
def deregMatchB (n : String) (oe : Option String) (s : ServiceEntry) : Bool :=
  match oe with
  | some env => s.service_name == n && s.environment == env
  | none => s.service_name == n

/-- Propositional version of `deregMatchB`. -/
def deregMatch (n : String) (oe : Option String) (s : ServiceEntry) : Prop :=
  match oe with
  | some env => s.service_name = n ∧ s.environment = env
  | none => s.service_name = n

theorem deregMatchB_iff (n : String) (oe : Option String) (s : ServiceEntry) :
    deregMatchB n oe s = true ↔ deregMatch n oe s := by
  cases oe <;> simp [deregMatchB, deregMatch]

theorem deregMatchB_eq_false_iff (n : String) (oe : Option String) (s : ServiceEntry) :
    deregMatchB n oe s = false ↔ ¬deregMatch n oe s := by
  rw [← deregMatchB_iff]
  cases deregMatchB n oe s <;> simp

instance (n : String) (oe : Option String) (s : ServiceEntry) :
    Decidable (deregMatch n oe s) :=
  decidable_of_iff _ (deregMatchB_iff n oe s)

/-- `deregister` written with the matching predicate factored out. -/
theorem deregister_eq (r : InMemoryRegistry) (n : String) (oe : Option String) :
    r.deregister n oe =
      (if ((r.services.filter (fun p => deregMatchB n oe p.2)).map Prod.fst).isEmpty then
        (Except.error RegistryError.NotFound, r)
      else
        (Except.ok (),
          ⟨((r.services.filter (fun p => deregMatchB n oe p.2)).map Prod.fst).foldl
            removeKey r.services⟩)) := by
  cases oe <;> rfl

/-- Removing a batch of keys removes exactly the pairs whose key lies in the
batch. -/
theorem foldl_removeKey (ids : List String) (l : List (String × ServiceEntry)) :
    ids.foldl removeKey l = l.filter (fun p => !ids.contains p.1) := by
  induction ids generalizing l with
  | nil => simp
  | cons id rest ih =>
    rw [List.foldl_cons, removeKey, ih, List.filter_filter]
    apply List.filter_congr
    intro p _
    simp only [List.contains_cons, Bool.not_or]
    rw [Bool.and_comm]
    simp [bne, BEq.comm]

/-- On a table with `Nodup` keys, removing the keys of the pairs matched by a
predicate removes exactly the matched pairs. -/
theorem foldl_removeKey_filter (l : List (String × ServiceEntry))
    (pred : String × ServiceEntry → Bool) (hnd : (l.map Prod.fst).Nodup) :
    ((l.filter pred).map Prod.fst).foldl removeKey l = l.filter (fun p => !pred p) := by
  rw [foldl_removeKey]
  apply List.filter_congr
  intro p hp
  have hkey : (((l.filter pred).map Prod.fst).contains p.1 = true) ↔ pred p = true := by
    rw [List.elem_iff]
    constructor
    · intro hmem
      rcases List.mem_map.mp hmem with ⟨q, hq, hq1⟩
      have hql := (List.mem_filter.mp hq).1
      have hqp : q = p := List.inj_on_of_nodup_map hnd hql hp hq1
      rw [← hqp]
      exact (List.mem_filter.mp hq).2
    · intro hb
      exact List.mem_map.mpr ⟨p, List.mem_filter.mpr ⟨hp, hb⟩, rfl⟩
  have : ((l.filter pred).map Prod.fst).contains p.1 = pred p := by
    rw [Bool.eq_iff_iff]
    exact hkey
  rw [this]

/-- An element of the list failing the filter predicate makes the filtered
list strictly shorter. -/
theorem length_filter_lt {α : Type} (l : List α) (p : α → Bool) (x : α) (hx : x ∈ l)
    (hpx : p x = false) : (l.filter p).length < l.length := by
  induction l with
  | nil => cases hx
  | cons a as ih =>
    rcases List.mem_cons.mp hx with rfl | hx'
    · rw [List.filter_cons, hpx]
      simp only [List.length_cons]
      exact Nat.lt_succ_of_le (List.length_filter_le p as)
    · cases hpa : p a
      · rw [List.filter_cons, hpa]
        simp only [List.length_cons]
        exact Nat.lt_succ_of_le (List.length_filter_le p as)
      · rw [List.filter_cons, hpa]
        simp only [List.length_cons, if_true]
        exact Nat.succ_lt_succ (ih hx')

/-- C2: `deregister` fails `NotFound` exactly when zero stored entries match
the given name (and environment, when one is given); in that error case the
registry is returned unchanged, and on `Ok` at least one entry has been
removed. -/
theorem deregister_notfound_iff (r : InMemoryRegistry) (n : String) (oe : Option String)
    (hnd : (r.services.map Prod.fst).Nodup) :
    ((r.deregister n oe).1 = Except.error RegistryError.NotFound ↔
      ∀ p ∈ r.services, ¬deregMatch n oe p.2) ∧
    ((r.deregister n oe).1 = Except.error RegistryError.NotFound →
      (r.deregister n oe).2 = r) ∧
    ((r.deregister n oe).1 = Except.ok () →
      (r.deregister n oe).2.services.length < r.services.length) := by
  by_cases hc : ((r.services.filter (fun p => deregMatchB n oe p.2)).map Prod.fst).isEmpty = true
  · have hall : ∀ p ∈ r.services, ¬deregMatch n oe p.2 := by
      simp only [List.isEmpty_iff, List.map_eq_nil_iff, List.filter_eq_nil_iff] at hc
      intro p hp hm
      exact hc p hp ((deregMatchB_iff n oe p.2).mpr hm)
    refine ⟨⟨fun _ => hall, fun _ => by simp [deregister_eq, hc]⟩,
      by simp [deregister_eq, hc], by simp [deregister_eq, hc]⟩
  · have hex : ∃ p ∈ r.services, deregMatch n oe p.2 := by
      have hmapne : (r.services.filter (fun p => deregMatchB n oe p.2)).map Prod.fst ≠ [] := by
        intro hmapnil
        exact hc (by rw [hmapnil]; rfl)
      rcases List.exists_mem_of_ne_nil _ hmapne with ⟨k, hk⟩
      rcases List.mem_map.mp hk with ⟨q, hq, _⟩
      exact ⟨q, (List.mem_filter.mp hq).1,
        (deregMatchB_iff n oe q.2).mp (List.mem_filter.mp hq).2⟩
    refine ⟨?_, ?_, fun _ => ?_⟩
    · simp only [deregister_eq, hc, if_false]
      constructor
      · intro h
        cases h
      · intro hall
        rcases hex with ⟨p, hp, hm⟩
        exact absurd hm (hall p hp)
    · simp [deregister_eq, hc]
    · rcases hex with ⟨p, hp, hm⟩
      simp only [deregister_eq, hc, if_false]
      rw [foldl_removeKey_filter _ _ hnd]
      exact length_filter_lt r.services _ p hp
        (by simp [deregMatchB_iff, hm])

/-- Witness for C2: deregistering `svc` across all environments on the
example registry removes entries, and the fact set is evaluated there. -/
theorem deregister_notfound_iff_witness :
    (regEx.services.map Prod.fst).Nodup ∧
    (((regEx.deregister "svc" none).1 = Except.error RegistryError.NotFound ↔
      ∀ p ∈ regEx.services, ¬deregMatch "svc" none p.2) ∧
    ((regEx.deregister "svc" none).1 = Except.error RegistryError.NotFound →
      (regEx.deregister "svc" none).2 = regEx) ∧
    ((regEx.deregister "svc" none).1 = Except.ok () →
      (regEx.deregister "svc" none).2.services.length < regEx.services.length)) :=
  ⟨by decide, deregister_notfound_iff regEx "svc" none (by decide)⟩

/-- C3: `deregister` removes exactly the matching entries — name and
environment when an environment is given, name alone otherwise: the resulting
table is the original with precisely the matching pairs removed, and removed
entries no longer appear in any subsequent `list` or `resolve` result. -/
theorem deregister_removes_exactly (r : InMemoryRegistry) (n : String) (oe : Option String)
    (hnd : (r.services.map Prod.fst).Nodup) :
    ((r.deregister n oe).2.services =
      r.services.filter (fun p => !deregMatchB n oe p.2)) ∧
    (∀ s, s ∈ (r.deregister n oe).2.list ↔ s ∈ r.list ∧ ¬deregMatch n oe s) ∧
    (∀ nm ev s, s ∈ (r.deregister n oe).2.resolve nm ev ↔
      s ∈ r.resolve nm ev ∧ ¬deregMatch n oe s) := by
  have h1 : (r.deregister n oe).2.services =
      r.services.filter (fun p => !deregMatchB n oe p.2) := by
    by_cases hc :
        ((r.services.filter (fun p => deregMatchB n oe p.2)).map Prod.fst).isEmpty = true
    · have hall : ∀ p ∈ r.services, deregMatchB n oe p.2 = false := by
        simp only [List.isEmpty_iff, List.map_eq_nil_iff, List.filter_eq_nil_iff] at hc
        intro p hp
        cases hb : deregMatchB n oe p.2
        · rfl
        · exact absurd hb (hc p hp)
      simp only [deregister_eq, hc, if_true]
      rw [eq_comm, List.filter_eq_self]
      intro p hp
      simp [hall p hp]
    · simp only [deregister_eq, hc, if_false]
      exact foldl_removeKey_filter _ _ hnd
  refine ⟨h1, fun s => ?_, fun nm ev s => ?_⟩
  · rw [InMemoryRegistry.list, InMemoryRegistry.list, h1]
    simp only [List.mem_map, List.mem_filter, Bool.not_eq_eq_eq_not, Bool.not_true,
      deregMatchB_eq_false_iff]
    constructor
    · rintro ⟨p, ⟨hp, hm⟩, rfl⟩
      exact ⟨⟨p, hp, rfl⟩, hm⟩
    · rintro ⟨⟨p, hp, rfl⟩, hm⟩
      exact ⟨p, ⟨hp, hm⟩, rfl⟩
  · rw [InMemoryRegistry.resolve, InMemoryRegistry.resolve, h1]
    simp only [List.mem_filter, List.mem_map, Bool.not_eq_eq_eq_not, Bool.not_true,
      deregMatchB_eq_false_iff]
    constructor
    · rintro ⟨⟨p, ⟨hp, hm⟩, rfl⟩, hpred⟩
      exact ⟨⟨⟨p, hp, rfl⟩, hpred⟩, hm⟩
    · rintro ⟨⟨⟨p, hp, rfl⟩, hpred⟩, hm⟩
      exact ⟨⟨p, ⟨hp, hm⟩, rfl⟩, hpred⟩

/-- Witness for C3: deregistering `svc` in environment `dev` on the example
registry removes exactly the matching entry. -/
theorem deregister_removes_exactly_witness :
    (regEx.services.map Prod.fst).Nodup ∧
    (((regEx.deregister "svc" (some "dev")).2.services =
      regEx.services.filter (fun p => !deregMatchB "svc" (some "dev") p.2)) ∧
    (∀ s, s ∈ (regEx.deregister "svc" (some "dev")).2.list ↔
      s ∈ regEx.list ∧ ¬deregMatch "svc" (some "dev") s) ∧
    (∀ nm ev s, s ∈ (regEx.deregister "svc" (some "dev")).2.resolve nm ev ↔
      s ∈ regEx.resolve nm ev ∧ ¬deregMatch "svc" (some "dev") s)) :=
  ⟨by decide, deregister_removes_exactly regEx "svc" (some "dev") (by decide)⟩

/-! Heartbeat. -/

/-- Matching predicate of `heartbeat` (Prop version): exact equality on name
and environment. -/
def hbMatch (n env : String) (s : ServiceEntry) : Prop :=
  s.service_name = n ∧ s.environment = env

theorem hbMatchB_iff (n env : String) (s : ServiceEntry) :
    ((s.service_name == n && s.environment == env) = true) ↔ hbMatch n env s := by
  simp [hbMatch]

/-- C1: `heartbeat` fails `NotFound` exactly when no stored entry matches and
succeeds when at least one does; the table afterwards corresponds pairwise to
the table before: every matching entry has its `last_heartbeat` set to the
clock value — which, when the clock is at or past all stored timestamps, is at
least the previous `last_heartbeat` and at least `registered_at` — and no
other field of any entry (nor any non-matching entry) changes. -/
theorem heartbeat_updates_matching (r : InMemoryRegistry) (n env : String) (now : Nat)
    (hclock : ∀ p ∈ r.services, p.2.last_heartbeat ≤ now ∧ p.2.registered_at ≤ now) :
    ((r.heartbeat n env now).1 = Except.error RegistryError.NotFound ↔
      ∀ p ∈ r.services, ¬hbMatch n env p.2) ∧
    ((r.heartbeat n env now).1 = Except.error RegistryError.NotFound →
      (r.heartbeat n env now).2 = r) ∧
    ((∃ p ∈ r.services, hbMatch n env p.2) →
      (r.heartbeat n env now).1 = Except.ok ()) ∧
    List.Forall₂
      (fun pOld pNew : String × ServiceEntry =>
        pNew.1 = pOld.1 ∧ pNew.2.id = pOld.2.id ∧
        pNew.2.service_name = pOld.2.service_name ∧
        pNew.2.environment = pOld.2.environment ∧
        pNew.2.address = pOld.2.address ∧ pNew.2.tags = pOld.2.tags ∧
        pNew.2.registered_at = pOld.2.registered_at ∧
        (hbMatch n env pOld.2 →
          pNew.2.last_heartbeat = now ∧
          pOld.2.last_heartbeat ≤ pNew.2.last_heartbeat ∧
          pNew.2.registered_at ≤ pNew.2.last_heartbeat) ∧
        (¬hbMatch n env pOld.2 → pNew.2.last_heartbeat = pOld.2.last_heartbeat))
      r.services (r.heartbeat n env now).2.services := by
  by_cases hb :
      r.services.any (fun p => p.2.service_name == n && p.2.environment == env) = true
  · have hany : ∃ p ∈ r.services, hbMatch n env p.2 := by
      rcases List.any_eq_true.mp hb with ⟨p, hp, hm⟩
      exact ⟨p, hp, (hbMatchB_iff n env p.2).mp hm⟩
    refine ⟨⟨fun h => by simp [InMemoryRegistry.heartbeat, hb] at h, fun hall => ?_⟩,
      fun h => by simp [InMemoryRegistry.heartbeat, hb] at h,
      fun _ => by simp [InMemoryRegistry.heartbeat, hb], ?_⟩
    · exfalso
      rcases hany with ⟨p, hp, hm⟩
      exact hall p hp hm
    · have h2 : (r.heartbeat n env now).2.services = r.services.map (fun p =>
          if p.2.service_name == n && p.2.environment == env then
            (p.1, { p.2 with last_heartbeat := now })
          else p) := by
        simp [InMemoryRegistry.heartbeat, hb]
      rw [h2, List.forall₂_map_right_iff, List.forall₂_same]
      intro p hp
      by_cases hm : (p.2.service_name == n && p.2.environment == env) = true
    -- matching entry: the clock value is written and the frame is preserved
      · have hmp := (hbMatchB_iff n env p.2).mp hm
        refine ⟨by simp [hm], by simp [hm], by simp [hm], by simp [hm], by simp [hm],
          by simp [hm], by simp [hm], fun _ => ⟨by simp [hm], ?_, ?_⟩,
          fun hcon => absurd hmp hcon⟩
        · simp only [hm, if_true]
          exact (hclock p hp).1
        · simp only [hm, if_true]
          exact (hclock p hp).2
    -- non-matching entry: unchanged
      · refine ⟨by simp [hm], by simp [hm], by simp [hm], by simp [hm], by simp [hm],
          by simp [hm], by simp [hm],
          fun hcon => absurd ((hbMatchB_iff n env p.2).mpr hcon) hm, fun _ => by simp [hm]⟩
  · have hnone : ∀ p ∈ r.services, ¬hbMatch n env p.2 := by
      intro p hp hm
      exact hb (List.any_eq_true.mpr ⟨p, hp, (hbMatchB_iff n env p.2).mpr hm⟩)
    have h2 : (r.heartbeat n env now).2 = r := by
      simp [InMemoryRegistry.heartbeat, hb]
    refine ⟨⟨fun _ => hnone, fun _ => by simp [InMemoryRegistry.heartbeat, hb]⟩,
      fun _ => h2, fun hex => ?_, ?_⟩
    · rcases hex with ⟨p, hp, hm⟩
      exact absurd hm (hnone p hp)
    · rw [h2, List.forall₂_same]
      intro p hp
      exact ⟨rfl, rfl, rfl, rfl, rfl, rfl, rfl, fun hm => absurd hm (hnone p hp),
        fun _ => rfl⟩

/-- Witness for C1: a heartbeat for `svc`/`dev` on the example registry at
clock value 10, which is past every stored timestamp. -/
theorem heartbeat_updates_matching_witness :
    (∀ p ∈ regEx.services, p.2.last_heartbeat ≤ 10 ∧ p.2.registered_at ≤ 10) ∧
    (((regEx.heartbeat "svc" "dev" 10).1 = Except.error RegistryError.NotFound ↔
      ∀ p ∈ regEx.services, ¬hbMatch "svc" "dev" p.2) ∧
    ((regEx.heartbeat "svc" "dev" 10).1 = Except.error RegistryError.NotFound →
      (regEx.heartbeat "svc" "dev" 10).2 = regEx) ∧
    ((∃ p ∈ regEx.services, hbMatch "svc" "dev" p.2) →
      (regEx.heartbeat "svc" "dev" 10).1 = Except.ok ()) ∧
    List.Forall₂
      (fun pOld pNew : String × ServiceEntry =>
        pNew.1 = pOld.1 ∧ pNew.2.id = pOld.2.id ∧
        pNew.2.service_name = pOld.2.service_name ∧
        pNew.2.environment = pOld.2.environment ∧
        pNew.2.address = pOld.2.address ∧ pNew.2.tags = pOld.2.tags ∧
        pNew.2.registered_at = pOld.2.registered_at ∧
        (hbMatch "svc" "dev" pOld.2 →
          pNew.2.last_heartbeat = 10 ∧
          pOld.2.last_heartbeat ≤ pNew.2.last_heartbeat ∧
          pNew.2.registered_at ≤ pNew.2.last_heartbeat) ∧
        (¬hbMatch "svc" "dev" pOld.2 → pNew.2.last_heartbeat = pOld.2.last_heartbeat))
      regEx.services (regEx.heartbeat "svc" "dev" 10).2.services) :=
  ⟨by decide, heartbeat_updates_matching regEx "svc" "dev" 10 (by decide)⟩

/-! Operation sequences and the frame property. -/

/-- One invocation of a registry operation, with its arguments (the clock
value of a heartbeat is part of the invocation). -/
inductive RegistryOp where
  | register (e : ServiceEntry)
  | deregister (n : String) (oe : Option String)
  | heartbeat (n env : String) (now : Nat)
  | resolve (n env : String)
  | list
deriving DecidableEq

/-- The registry state after one operation (reads leave the state as is). -/
def applyOp (r : InMemoryRegistry) : RegistryOp → InMemoryRegistry
  | RegistryOp.register e => (r.register e).2
  | RegistryOp.deregister n oe => (r.deregister n oe).2
  | RegistryOp.heartbeat n env t => (r.heartbeat n env t).2
  | RegistryOp.resolve _ _ => r
  | RegistryOp.list => r

/-- The registry state after a sequence of operations. -/
def applyOps (r : InMemoryRegistry) (ops : List RegistryOp) : InMemoryRegistry :=
  ops.foldl applyOp r

/-- Agreement on every `ServiceEntry` field except `last_heartbeat`. -/
def sameFrame (a b : ServiceEntry) : Prop :=
  a.id = b.id ∧ a.service_name = b.service_name ∧ a.environment = b.environment ∧
  a.address = b.address ∧ a.tags = b.tags ∧ a.registered_at = b.registered_at

theorem sameFrame_refl (a : ServiceEntry) : sameFrame a a :=
  ⟨rfl, rfl, rfl, rfl, rfl, rfl⟩

theorem sameFrame_trans {a b c : ServiceEntry} (h1 : sameFrame a b) (h2 : sameFrame b c) :
    sameFrame a c := by
  obtain ⟨x1, x2, x3, x4, x5, x6⟩ := h1
  obtain ⟨y1, y2, y3, y4, y5, y6⟩ := h2
  exact ⟨x1.trans y1, x2.trans y2, x3.trans y3, x4.trans y4, x5.trans y5, x6.trans y6⟩

/-- Batch key removal only ever drops pairs. -/
theorem mem_foldl_removeKey (ids : List String) (l : List (String × ServiceEntry))
    (q : String × ServiceEntry) (hq : q ∈ ids.foldl removeKey l) : q ∈ l := by
  rw [foldl_removeKey] at hq
  exact (List.mem_filter.mp hq).1

/-- Where a pair in the state after one operation comes from: it was already
stored, or the operation registered it, or the operation was a heartbeat and
the pair shares its key and all non-`last_heartbeat` fields with a previously
stored pair. -/
theorem mem_applyOp (r : InMemoryRegistry) (op : RegistryOp) (q : String × ServiceEntry)
    (hq : q ∈ (applyOp r op).services) :
    q ∈ r.services ∨
    (∃ e, op = RegistryOp.register e ∧ q = (e.id, e)) ∨
    (∃ n env t, op = RegistryOp.heartbeat n env t ∧
      ∃ p ∈ r.services, p.1 = q.1 ∧ sameFrame p.2 q.2) := by
  cases op with
  | register e =>
    simp only [applyOp, InMemoryRegistry.register] at hq
    split at hq
    · exact Or.inl hq
    · simp only [List.mem_append, List.mem_singleton] at hq
      rcases hq with hq | hq
      · exact Or.inl hq
      · exact Or.inr (Or.inl ⟨e, rfl, hq⟩)
  | deregister n oe =>
    simp only [applyOp] at hq
    rw [deregister_eq] at hq
    split at hq
    · exact Or.inl hq
    · exact Or.inl (mem_foldl_removeKey _ _ q hq)
  | heartbeat n env t =>
    simp only [applyOp, InMemoryRegistry.heartbeat] at hq
    split at hq
    · rcases List.mem_map.mp hq with ⟨p, hp, hfp⟩
      refine Or.inr (Or.inr ⟨n, env, t, rfl, p, hp, ?_⟩)
      by_cases hm : (p.2.service_name == n && p.2.environment == env) = true
      · rw [if_pos hm] at hfp
        rw [← hfp]
        exact ⟨rfl, rfl, rfl, rfl, rfl, rfl, rfl⟩
      · rw [if_neg hm] at hfp
        rw [← hfp]
        exact ⟨rfl, sameFrame_refl p.2⟩
    · exact Or.inl hq
  | resolve n env => exact Or.inl hq
  | list => exact Or.inl hq

/-- C7: over any sequence of operations, every pair in the final table keeps
the key and all non-`last_heartbeat` fields of the pair it descends from
(either initially stored or registered along the way); when the sequence
contains no heartbeat, every surviving pair is exactly an initial or
registered pair, unchanged in all fields. -/
theorem frame_only_heartbeat_writes (r : InMemoryRegistry) (ops : List RegistryOp)
    (q : String × ServiceEntry) (hq : q ∈ (applyOps r ops).services) :
    ((∃ p ∈ r.services, p.1 = q.1 ∧ sameFrame p.2 q.2) ∨
      (∃ e, RegistryOp.register e ∈ ops ∧ e.id = q.1 ∧ sameFrame e q.2)) ∧
    ((∀ n env t, RegistryOp.heartbeat n env t ∉ ops) →
      (q ∈ r.services ∨ ∃ e, RegistryOp.register e ∈ ops ∧ q = (e.id, e))) := by
  induction ops generalizing r with
  | nil =>
    exact ⟨Or.inl ⟨q, hq, rfl, sameFrame_refl q.2⟩, fun _ => Or.inl hq⟩
  | cons op rest ih =>
    obtain ⟨hA, hB⟩ := ih (applyOp r op) hq
    constructor
    · rcases hA with ⟨p, hp, hpq, hf⟩ | ⟨e, he, heq, hf⟩
      · rcases mem_applyOp r op p hp with hmem | ⟨e, hop, hpe⟩ | ⟨n, env, t, _, p', hp', hp'1, hf'⟩
        · exact Or.inl ⟨p, hmem, hpq, hf⟩
        · subst hop
          refine Or.inr ⟨e, List.mem_cons_self _ _, ?_, ?_⟩
          · rw [← hpq, hpe]
          · have hp2 : p.2 = e := by rw [hpe]
            rw [← hp2]
            exact hf
        · exact Or.inl ⟨p', hp', hp'1.trans hpq, sameFrame_trans hf' hf⟩
      · exact Or.inr ⟨e, List.mem_cons_of_mem _ he, heq, hf⟩
    · intro hnb
      have hnb' : ∀ n env t, RegistryOp.heartbeat n env t ∉ rest := fun n env t h =>
        hnb n env t (List.mem_cons_of_mem _ h)
      rcases hB hnb' with hmem | ⟨e, he, hqe⟩
      · rcases mem_applyOp r op q hmem with h1 | ⟨e, hop, hqe⟩ | ⟨n, env, t, hop, _⟩
        · exact Or.inl h1
        · subst hop
          exact Or.inr ⟨e, List.mem_cons_self _ _, hqe⟩
        · subst hop
          exact absurd (List.mem_cons_self _ _) (hnb n env t)
      · exact Or.inr ⟨e, List.mem_cons_of_mem _ he, hqe⟩

/-- Witness for C7: a heartbeat on the example registry, traced on the
updated pair for `svc`/`dev`. -/
theorem frame_only_heartbeat_writes_witness :
    ("id-1", { entryEx1 with last_heartbeat := 10 }) ∈
      (applyOps regEx [RegistryOp.heartbeat "svc" "dev" 10]).services ∧
    (((∃ p ∈ regEx.services, p.1 = ("id-1", { entryEx1 with last_heartbeat := 10 }).1 ∧
        sameFrame p.2 ("id-1", { entryEx1 with last_heartbeat := 10 }).2) ∨
      (∃ e, RegistryOp.register e ∈ [RegistryOp.heartbeat "svc" "dev" 10] ∧
        e.id = ("id-1", { entryEx1 with last_heartbeat := 10 }).1 ∧
        sameFrame e ("id-1", { entryEx1 with last_heartbeat := 10 }).2)) ∧
    ((∀ n env t, RegistryOp.heartbeat n env t ∉ [RegistryOp.heartbeat "svc" "dev" 10]) →
      (("id-1", { entryEx1 with last_heartbeat := 10 }) ∈ regEx.services ∨
        ∃ e, RegistryOp.register e ∈ [RegistryOp.heartbeat "svc" "dev" 10] ∧
          ("id-1", { entryEx1 with last_heartbeat := 10 }) = (e.id, e)))) :=
  ⟨by decide, frame_only_heartbeat_writes regEx [RegistryOp.heartbeat "svc" "dev" 10]
      ("id-1", { entryEx1 with last_heartbeat := 10 }) (by decide)⟩

/-! Port extraction: specification-side descriptions and the comparison with
the code. -/

/-- The characters after the first occurrence of `://` (everything consumed
when none occurs). -/
def dropThroughProto : List Char → List Char
  | ':' :: '/' :: '/' :: rest => rest
  | _ :: rest => dropThroughProto rest
  | [] => []

/-- The characters before the first occurrence of `://`. -/
def takeUntilProto : List Char → List Char
  | ':' :: '/' :: '/' :: _ => []
  | x :: rest => x :: takeUntilProto rest
  | [] => []

/-- The claim's reading of `extract_port`: the numeric port parsed from the
characters following the last `:` that occurs before any `/` (looking at the
part after the scheme separator when one is present). -/
def portSpecLastColon (l : List Char) : Option Nat :=
  let host := if containsProto l then dropThroughProto l else l
  let pre := host.takeWhile (· != '/')
  if ':' ∈ pre then parseU16 ((pre.reverse.takeWhile (· != ':')).reverse)
  else none

/-- The amended reading of `extract_port`: the port is parsed from the
segment between the first `:` of the host part (the part between the first
`://` separator and the next one, or the whole string when no `://` occurs)
and the following `:`, truncated at the first `/`; none when the host part
has no `:` or the segment does not parse as a 16-bit number. -/
def portSpecFirstColon (l : List Char) : Option Nat :=
  let host := if containsProto l then takeUntilProto (dropThroughProto l) else l
  if ':' ∈ host then
    parseU16 ((((host.dropWhile (· != ':')).drop 1).takeWhile (· != ':')).takeWhile (· != '/'))
  else none

theorem splitOnChar_ne_nil (c : Char) (l : List Char) : splitOnChar c l ≠ [] := by
  cases l with
  | nil => simp [splitOnChar]
  | cons x xs => by_cases h : x = c <;> simp [splitOnChar, h]

theorem headD_splitOnChar (c : Char) (l : List Char) :
    (splitOnChar c l).headD [] = l.takeWhile (· != c) := by
  induction l with
  | nil => rfl
  | cons x xs ih =>
    by_cases h : x = c
    · simp [splitOnChar, h]
    · simp only [splitOnChar, if_neg h, List.headD_cons, List.takeWhile_cons]
      have hbx : (x != c) = true := by simp [h]
      rw [hbx, if_pos rfl, ih]

theorem head?_splitOnChar (c : Char) (l : List Char) :
    (splitOnChar c l).head? = some (l.takeWhile (· != c)) := by
  obtain ⟨hd, tl, heq⟩ := List.exists_cons_of_ne_nil (splitOnChar_ne_nil c l)
  have h2 := headD_splitOnChar c l
  rw [heq] at h2 ⊢
  simpa using h2

theorem two_le_length_splitOnChar (c : Char) (l : List Char) :
    2 ≤ (splitOnChar c l).length ↔ c ∈ l := by
  induction l with
  | nil => simp [splitOnChar]
  | cons x xs ih =>
    have hlen := List.length_pos.mpr (splitOnChar_ne_nil c xs)
    by_cases h : x = c
    · subst h
      rw [show splitOnChar x (x :: xs) = [] :: splitOnChar x xs from by simp [splitOnChar]]
      simp only [List.length_cons, List.mem_cons]
      constructor
      · intro _
        exact Or.inl (by trivial)
      · intro _
        omega
    · simp only [splitOnChar, if_neg h, List.length_cons, List.length_tail, List.mem_cons]
      rw [← ih]
      constructor
      · intro h2
        exact Or.inr (by omega)
      · rintro (hcx | h2)
        · exact absurd hcx.symm h
        · omega

theorem getD_one_splitOnChar (c : Char) (l : List Char) :
    (splitOnChar c l).getD 1 [] = ((l.dropWhile (· != c)).drop 1).takeWhile (· != c) := by
  induction l with
  | nil => rfl
  | cons x xs ih =>
    obtain ⟨hd, tl, heq⟩ := List.exists_cons_of_ne_nil (splitOnChar_ne_nil c xs)
    by_cases h : x = c
    · have hbx : (x != c) = false := by simp [h]
      simp only [splitOnChar, if_pos h, List.dropWhile_cons, hbx, Bool.false_eq_true,
        if_false, List.drop_succ_cons, List.drop_zero]
      rw [heq]
      have h2 := headD_splitOnChar c xs
      rw [heq] at h2
      simpa using h2
    · have hbx : (x != c) = true := by simp [h]
      simp only [splitOnChar, if_neg h, List.dropWhile_cons, hbx, if_true]
      rw [heq] at ih ⊢
      simpa using ih

theorem splitOnProto_ne_nil (l : List Char) : splitOnProto l ≠ [] := by
  induction l using splitOnProto.induct with
  | case1 rest ih => simp [splitOnProto]
  | case2 x rest h ih => simp [splitOnProto]
  | case3 => simp [splitOnProto]

theorem headD_splitOnProto (l : List Char) :
    (splitOnProto l).headD [] = takeUntilProto l := by
  induction l using splitOnProto.induct with
  | case1 rest ih => rw [splitOnProto.eq_1, takeUntilProto.eq_1]; rfl
  | case2 x rest h ih => rw [splitOnProto.eq_2 _ _ h, takeUntilProto.eq_2 _ _ h, ← ih]; rfl
  | case3 => rfl

theorem two_le_length_splitOnProto (l : List Char) :
    2 ≤ (splitOnProto l).length ↔ containsProto l = true := by
  induction l using splitOnProto.induct with
  | case1 rest ih =>
    have hlen := List.length_pos.mpr (splitOnProto_ne_nil rest)
    rw [splitOnProto.eq_1, containsProto.eq_1]
    simp only [List.length_cons]
    constructor
    · intro _
      trivial
    · intro _
      omega
  | case2 x rest h ih =>
    have hlen := List.length_pos.mpr (splitOnProto_ne_nil rest)
    rw [splitOnProto.eq_2 _ _ h, containsProto.eq_2 _ _ h, ← ih]
    simp only [List.length_cons, List.length_tail]
    omega
  | case3 => simp [splitOnProto, containsProto]

theorem getD_one_splitOnProto (l : List Char) :
    (splitOnProto l).getD 1 [] = takeUntilProto (dropThroughProto l) := by
  induction l using splitOnProto.induct with
  | case1 rest ih =>
    obtain ⟨hd, tl, heq⟩ := List.exists_cons_of_ne_nil (splitOnProto_ne_nil rest)
    rw [splitOnProto.eq_1, dropThroughProto.eq_1, heq]
    have h2 := headD_splitOnProto rest
    rw [heq] at h2
    simpa using h2
  | case2 x rest h ih =>
    obtain ⟨hd, tl, heq⟩ := List.exists_cons_of_ne_nil (splitOnProto_ne_nil rest)
    rw [splitOnProto.eq_2 _ _ h, dropThroughProto.eq_2 _ _ h]
    rw [heq] at ih ⊢
    simpa using ih
  | case3 => rfl

/-- The host-part processing shared by both branches of `extract_port`,
rephrased with first-colon segment extraction. -/
theorem hostPort_eq (host : List Char) :
    (if (splitOnChar ':' host).length < 2 then none
     else
       match (splitOnChar '/' ((splitOnChar ':' host).getD 1 [])).head? with
       | none => none
       | some seg => parseU16 seg) =
    (if ':' ∈ host then
      parseU16 ((((host.dropWhile (· != ':')).drop 1).takeWhile (· != ':')).takeWhile (· != '/'))
    else none) := by
  by_cases hc : ':' ∈ host
  · rw [if_neg (by rw [Nat.not_lt]; exact (two_le_length_splitOnChar ':' host).mpr hc),
      if_pos hc, getD_one_splitOnChar, head?_splitOnChar]
  · rw [if_pos (Nat.lt_of_not_le fun hle => hc ((two_le_length_splitOnChar ':' host).mp hle)),
      if_neg hc]

/-- C6 (amended): `extract_port` parses the port from the segment following
the first `:` of the host part (not the last `:`), truncated at the next `:`
or `/`; in particular the spec's examples `localhost` and `http://localhost`
yield none. -/
theorem extract_port_first_colon_amended :
    (∀ s : String, ServiceAddress.extract_port (ServiceAddress.String s) =
      portSpecFirstColon s.data) ∧
    ServiceAddress.extract_port (ServiceAddress.String "localhost") = none ∧
    ServiceAddress.extract_port (ServiceAddress.String "http://localhost") = none := by
  refine ⟨fun s => ?_, by decide, by decide⟩
  simp only [ServiceAddress.extract_port, portSpecFirstColon]
  by_cases hp : containsProto s.data = true
  · rw [if_pos hp, if_pos hp,
      if_neg (by rw [Nat.not_lt]; exact (two_le_length_splitOnProto s.data).mpr hp),
      getD_one_splitOnProto]
    exact hostPort_eq (takeUntilProto (dropThroughProto s.data))
  · rw [if_neg hp, if_neg hp]
    exact hostPort_eq s.data

/-- C6 counterexample: on the address `a:1:2` (no `/` at all, so both `:`
qualify and the last one is the second), the claim's last-colon rule yields
port 2, but `extract_port` parses the segment after the first `:` and yields
port 1. -/
theorem extract_port_last_colon_counterexample :
    ServiceAddress.extract_port (ServiceAddress.String "a:1:2") = some 1 ∧
    portSpecLastColon ("a:1:2".data) = some 2 ∧
    ServiceAddress.extract_port (ServiceAddress.String "a:1:2") ≠
      portSpecLastColon ("a:1:2".data) := by
  refine ⟨by decide, by decide, by decide⟩

end Xolotl
